import Mathlib

/-!
Verification development for the track-cache core of a terminal music
library browser (Rust sources `src/cache.rs`, `src/app.rs`).  Strings are
modelled as lists of characters; the Rust functions are translated into
executable Lean definitions and the specification claims are settled as
theorems about those definitions.
-/

set_option maxHeartbeats 1000000

/-- Strings from the Rust source are modelled as lists of characters. -/
abbrev Str := List Char

/-- Embedding of Rust `str::to_lowercase` (ASCII-faithful). -/
def lowerStr (s : Str) : Str := s.map Char.toLower

/-- Embedding of Rust `char::is_uppercase` on a string:
`s.chars().any(|c| c.is_uppercase())`. -/
def hasUpperChar (s : Str) : Bool := s.any Char.isUpper

/-- Embedding of Rust `str::contains(&str)`: substring containment
(`needle` occurs contiguously in `hay`). -/
def containsSub (hay needle : Str) : Bool :=
  match hay with
  | [] => needle.isEmpty
  | _ :: t => needle.isPrefixOf hay || containsSub t needle

/-- Embedding of Rust `str::split_whitespace` (auxiliary, carries the
current chunk reversed). -/
def splitWsAux (cur : Str) : Str → List Str
  | [] => if cur.isEmpty then [] else [cur.reverse]
  | c :: cs =>
    if c.isWhitespace then
      if cur.isEmpty then splitWsAux [] cs else cur.reverse :: splitWsAux [] cs
    else
      splitWsAux (c :: cur) cs

/-- Embedding of Rust `str::split_whitespace`: the maximal non-whitespace
chunks, in order, empty chunks dropped. -/
def splitWs (s : Str) : List Str := splitWsAux [] s

/-- Embedding of Rust `str::split(", ")` (auxiliary, current chunk
reversed).  Splits at each leftmost non-overlapping occurrence of the
two-character separator. -/
def splitCommaSpaceAux (cur : Str) : Str → List Str
  | [] => [cur.reverse]
  | [c] => [cur.reverse ++ [c]]
  | c1 :: c2 :: rest =>
    if c1 = ',' ∧ c2 = ' ' then cur.reverse :: splitCommaSpaceAux [] rest
    else splitCommaSpaceAux (c1 :: cur) (c2 :: rest)

/-- Embedding of Rust `str::split(", ")`. -/
def splitCommaSpace (s : Str) : List Str := splitCommaSpaceAux [] s

/-- Embedding of Rust `str::split(" at ")` (auxiliary): splits at each
leftmost non-overlapping occurrence of the four-character separator. -/
def splitAtSepAux (cur : Str) : Str → List Str
  | [] => [cur.reverse]
  | [c1] => [cur.reverse ++ [c1]]
  | [c1, c2] => [cur.reverse ++ [c1, c2]]
  | [c1, c2, c3] => [cur.reverse ++ [c1, c2, c3]]
  | c1 :: c2 :: c3 :: c4 :: rest =>
    if c1 = ' ' ∧ c2 = 'a' ∧ c3 = 't' ∧ c4 = ' ' then
      cur.reverse :: splitAtSepAux [] rest
    else splitAtSepAux (c1 :: cur) (c2 :: c3 :: c4 :: rest)

/-- Embedding of Rust `str::split(" at ")`. -/
def splitAtSep (s : Str) : List Str := splitAtSepAux [] s

/-- Decimal digits of a natural number (fuel-based so that it reduces in
the kernel). -/
def natDigitsAux : Nat → Nat → Str → Str
  | 0, _, acc => acc
  | fuel + 1, n, acc =>
    if n < 10 then Nat.digitChar n :: acc
    else natDigitsAux fuel (n / 10) (Nat.digitChar (n % 10) :: acc)

/-- Decimal rendering of a natural number. -/
def natDigits (n : Nat) : Str := natDigitsAux (n + 1) n []

/-- Embedding of Rust's `{:0w}` format specifier: left-pad the decimal
rendering with zeros to width `w` (longer numbers are not truncated). -/
def padNum (w n : Nat) : Str :=
  let s := natDigits n
  List.replicate (w - s.length) '0' ++ s

/-- Embedding of Rust `str::parse::<u32>`: optional leading `+`, then a
nonempty digit string whose value fits in 32 bits. -/
def parseU32 (s : Str) : Option Nat :=
  let core := if s.head? = some '+' then s.tail else s
  if core.isEmpty then none
  else if core.all Char.isDigit then
    let v := core.foldl (fun a c => a * 10 + (c.toNat - 48)) 0
    if v < 2 ^ 32 then some v else none
  else none

/-- Lexicographic comparison of two character lists, the embedding of
Rust `String::cmp` for the ASCII strings this program compares. -/
def compareStr : Str → Str → Ordering
  | [], [] => .eq
  | [], _ :: _ => .lt
  | _ :: _, [] => .gt
  | a :: as', b :: bs' =>
    match compare a.toNat b.toNat with
    | .eq => compareStr as' bs'
    | o => o

/-- Stable insertion used to model Rust's stable `sort_by`. -/
def insertByCmp {α : Type} (cmp : α → α → Ordering) (x : α) : List α → List α
  | [] => [x]
  | y :: ys => if cmp x y = .gt then y :: insertByCmp cmp x ys else x :: y :: ys

/-- Stable sort used to model Rust's `sort_by`. -/
def sortByCmp {α : Type} (cmp : α → α → Ordering) : List α → List α
  | [] => []
  | x :: xs => insertByCmp cmp x (sortByCmp cmp xs)

/-! ## The track record (`CachedTrack` in `src/cache.rs`) -/

/-- The derived search key: `format!("{} {} {}", name, artist, album)`
lower-cased. -/
def computeSearchKey (name artist album : Str) : Str :=
  lowerStr (name ++ [' '] ++ artist ++ [' '] ++ album)

/-- One library row (`CachedTrack` in `src/cache.rs`). -/
structure CachedTrack where
  name : Str
  artist : Str
  album : Str
  date_added : Str
  year : Nat
  track_number : Nat
  disc_number : Nat
  time : Str
  played_count : Nat
  favorited : Bool
  search_key : Str
deriving DecidableEq, Repr

/-- `CachedTrack::new`: builds a record with its derived search key. -/
def CachedTrack.new (name artist album date_added : Str) (year track_number disc_number : Nat)
    (time : Str) (played_count : Nat) (favorited : Bool) : CachedTrack :=
  { name, artist, album, date_added, year, track_number, disc_number,
    time, played_count, favorited,
    search_key := computeSearchKey name artist album }

/-- `CachedTrack::init_search_key`: recompute the derived search key from
the record's own name/artist/album. -/
def CachedTrack.init_search_key (t : CachedTrack) : CachedTrack :=
  { t with search_key := computeSearchKey t.name t.artist t.album }

/-- The merge key of `upsert_tracks`: equality of the (name, artist,
album) identity triple. -/
def sameKey (a b : CachedTrack) : Prop :=
  a.name = b.name ∧ a.artist = b.artist ∧ a.album = b.album

instance (a b : CachedTrack) : Decidable (sameKey a b) := by
  unfold sameKey; infer_instance

/-! ## The track cache aggregate (`TrackCache` in `src/cache.rs`) -/

/-- The cache aggregate (`TrackCache` in `src/cache.rs`).
`search_keys_built` models the `search_keys_initialized` skip-field. -/
structure TrackCache where
  total_tracks : Nat
  loaded_tracks : Nat
  last_updated : Option Nat
  tracks : List CachedTrack
  search_keys_built : Bool
  is_fresh_build : Bool
deriving DecidableEq, Repr

/-- `TrackCache::default()` (all fields at their Rust defaults). -/
def TrackCache.default : TrackCache :=
  { total_tracks := 0, loaded_tracks := 0, last_updated := none,
    tracks := [], search_keys_built := false, is_fresh_build := false }

/-- The persisted shape of one track (the serde fields of `CachedTrack`;
`search_key` is `#[serde(skip)]` and absent). -/
structure StoredTrack where
  name : Str
  artist : Str
  album : Str
  date_added : Str
  year : Nat
  track_number : Nat
  disc_number : Nat
  time : Str
  played_count : Nat
  favorited : Bool
deriving DecidableEq, Repr

/-- Rehydrating a persisted track: skipped `search_key` defaults to the
empty string. -/
def StoredTrack.toTrack (s : StoredTrack) : CachedTrack :=
  { name := s.name, artist := s.artist, album := s.album,
    date_added := s.date_added, year := s.year,
    track_number := s.track_number, disc_number := s.disc_number,
    time := s.time, played_count := s.played_count,
    favorited := s.favorited, search_key := [] }

/-- The persisted shape of the whole cache file (`tracks.json`). -/
structure StoredCache where
  total_tracks : Nat
  loaded_tracks : Nat
  last_updated : Option Nat
  tracks : List StoredTrack
deriving DecidableEq, Repr

/-- The possible outcomes of resolving and reading the cache file,
the environment input of `TrackCache::load`.  `fileContent none` is a
file that exists and was read but failed to deserialize; `fileContent
(some s)` is a successfully parsed file. -/
inductive LoadInput where
  | noCacheDir
  | fileMissing
  | readFailed
  | fileContent (parsed : Option StoredCache)
deriving DecidableEq, Repr

/-- `TrackCache::load` as a function of the file-system outcome
(`src/cache.rs` lines 82-97).  Missing path, missing file and read
errors yield the default cache flagged `is_fresh_build`; a parse
failure yields `unwrap_or_default()`, i.e. the default cache with
`is_fresh_build = false`. -/
def TrackCache.load : LoadInput → TrackCache
  | .noCacheDir => { TrackCache.default with is_fresh_build := true }
  | .fileMissing => { TrackCache.default with is_fresh_build := true }
  | .readFailed => { TrackCache.default with is_fresh_build := true }
  | .fileContent none => TrackCache.default
  | .fileContent (some s) =>
    { total_tracks := s.total_tracks, loaded_tracks := s.loaded_tracks,
      last_updated := s.last_updated,
      tracks := s.tracks.map StoredTrack.toTrack,
      search_keys_built := false, is_fresh_build := false }

/-- `TrackCache::update_timestamp`, with the current clock reading passed
in explicitly. -/
def TrackCache.update_timestamp (c : TrackCache) (now : Nat) : TrackCache :=
  { c with last_updated := some now }

/-- `TrackCache::add_tracks`: unconditional append, then recompute
`loaded_tracks` from the new length. -/
def TrackCache.add_tracks (c : TrackCache) (new_tracks : List CachedTrack) : TrackCache :=
  { c with tracks := c.tracks ++ new_tracks,
           loaded_tracks := (c.tracks ++ new_tracks).length }

/-- Overwriting the mutable fields of an existing record from an incoming
one and refreshing its search key in place (the `if let Some(existing)`
branch body of `upsert_tracks`). -/
def updateExisting (ex nt : CachedTrack) : CachedTrack :=
  CachedTrack.init_search_key
    { ex with date_added := nt.date_added, year := nt.year,
              track_number := nt.track_number, disc_number := nt.disc_number,
              time := nt.time, played_count := nt.played_count,
              favorited := nt.favorited }

/-- Processing one incoming record of `upsert_tracks`: mutate the first
key-matching stored record in place, or push the incoming record at the
end.  The Boolean reports whether the record was appended. -/
def upsertOne : List CachedTrack → CachedTrack → List CachedTrack × Bool
  | [], nt => ([nt], true)
  | t :: ts, nt =>
    if sameKey t nt then (updateExisting t nt :: ts, false)
    else
      let r := upsertOne ts nt
      (t :: r.1, r.2)

/-- The loop of `upsert_tracks` over the incoming batch, returning the
final store and `added_count`. -/
def upsertList : List CachedTrack → List CachedTrack → List CachedTrack × Nat
  | ts, [] => (ts, 0)
  | ts, nt :: rest =>
    let step := upsertOne ts nt
    let r := upsertList step.1 rest
    (r.1, (if step.2 then 1 else 0) + r.2)

/-- `TrackCache::upsert_tracks` (`src/cache.rs` lines 131-155): merge a
batch by the (name, artist, album) key, recompute `loaded_tracks`, and
return `added_count`. -/
def TrackCache.upsert_tracks (c : TrackCache) (new_tracks : List CachedTrack) :
    TrackCache × Nat :=
  let r := upsertList c.tracks new_tracks
  ({ c with tracks := r.1, loaded_tracks := r.1.length }, r.2)

/-- `TrackCache::is_complete`: `total_tracks > 0 && loaded_tracks >=
total_tracks`. -/
def TrackCache.is_complete (c : TrackCache) : Prop :=
  0 < c.total_tracks ∧ c.total_tracks ≤ c.loaded_tracks

instance (c : TrackCache) : Decidable c.is_complete := by
  unfold TrackCache.is_complete; infer_instance

/-- `TrackCache::ensure_search_keys`: lazily rebuild every search key
once. -/
def TrackCache.ensure_search_keys (c : TrackCache) : TrackCache :=
  if c.search_keys_built then c
  else { c with tracks := c.tracks.map CachedTrack.init_search_key,
                search_keys_built := true }

/-! ## The search engine (`TrackCache::search` and helpers) -/

/-- `TrackCache::parse_filter_value` (`src/cache.rs` lines 295-313):
empty values are discarded; values wrapped in matching `"` or `'`
quotes with a nonempty inside become exact filters; everything else is
a substring filter on the raw value. -/
def parse_filter_value (v : Str) : Option (Str × Bool) :=
  if v.isEmpty then none
  else if 2 ≤ v.length ∧
      ((v.head? = some '"' ∧ v.getLast? = some '"') ∨
       (v.head? = some '\'' ∧ v.getLast? = some '\'')) then
    let inner := (v.drop 1).dropLast
    if inner.isEmpty then none else some (inner, true)
  else some (v, false)

/-- `TrackCache::smart_case_match`: case-sensitive substring match when
the key has an upper-case character, case-insensitive otherwise. -/
def smart_case_match (target key : Str) : Bool :=
  if hasUpperChar key then containsSub target key
  else containsSub (lowerStr target) (lowerStr key)

/-- `TrackCache::field_match`: exact equality for quoted filters,
smart-case substring match otherwise. -/
def field_match (target key : Str) (exact : Bool) : Bool :=
  if exact then target = key else smart_case_match target key

/-- The four token buckets built by the classification loop of
`TrackCache::search`. -/
structure SearchFilters where
  nameF : List (Str × Bool)
  artistF : List (Str × Bool)
  albumF : List (Str × Bool)
  general : List Str
deriving DecidableEq, Repr

/-- The `name:` field prefix. -/
def namePfx : Str := ['n', 'a', 'm', 'e', ':']

/-- The `artist:` field prefix. -/
def artistPfx : Str := ['a', 'r', 't', 'i', 's', 't', ':']

/-- The `album:` field prefix. -/
def albumPfx : Str := ['a', 'l', 'b', 'u', 'm', ':']

/-- The token-classification loop of `TrackCache::search` (`src/cache.rs`
lines 231-248): a token whose lower-casing starts with a field prefix
feeds `parse_filter_value` (and is dropped entirely when that returns
`None`); every other token is a general search word. -/
def collectFilters : List Str → SearchFilters
  | [] => ⟨[], [], [], []⟩
  | w :: rest =>
    let r := collectFilters rest
    let wl := lowerStr w
    if namePfx.isPrefixOf wl then
      match parse_filter_value (w.drop 5) with
      | some f => { r with nameF := f :: r.nameF }
      | none => r
    else if artistPfx.isPrefixOf wl then
      match parse_filter_value (w.drop 7) with
      | some f => { r with artistF := f :: r.artistF }
      | none => r
    else if albumPfx.isPrefixOf wl then
      match parse_filter_value (w.drop 6) with
      | some f => { r with albumF := f :: r.albumF }
      | none => r
    else { r with general := w :: r.general }

/-- The per-record predicate of the filter closure in
`TrackCache::search` (`src/cache.rs` lines 252-289). -/
def trackMatches (fs : SearchFilters) (t : CachedTrack) : Bool :=
  fs.nameF.all (fun f => field_match t.name f.1 f.2) &&
  fs.artistF.all (fun f => field_match t.artist f.1 f.2) &&
  fs.albumF.all (fun f => field_match t.album f.1 f.2) &&
  fs.general.all (fun w =>
    if hasUpperChar w then
      containsSub (t.name ++ [' '] ++ t.artist ++ [' '] ++ t.album) w
    else containsSub t.search_key (lowerStr w))

/-- `TrackCache::search` (`src/cache.rs` lines 221-292).  Because the
Rust method takes `&mut self` (it lazily builds the search keys), the
embedding returns the updated cache together with the result list. -/
def TrackCache.search (c : TrackCache) (query : Str) : TrackCache × List CachedTrack :=
  let c := c.ensure_search_keys
  let fs := collectFilters (splitWs query)
  (c, c.tracks.filter (trackMatches fs))

/-! ## Date parsing and recent albums -/

/-- The month-name table of `parse_date_to_sortable` (unknown names map
to 1). -/
def monthNum (m : Str) : Nat :=
  if m = ['J', 'a', 'n', 'u', 'a', 'r', 'y'] then 1
  else if m = ['F', 'e', 'b', 'r', 'u', 'a', 'r', 'y'] then 2
  else if m = ['M', 'a', 'r', 'c', 'h'] then 3
  else if m = ['A', 'p', 'r', 'i', 'l'] then 4
  else if m = ['M', 'a', 'y'] then 5
  else if m = ['J', 'u', 'n', 'e'] then 6
  else if m = ['J', 'u', 'l', 'y'] then 7
  else if m = ['A', 'u', 'g', 'u', 's', 't'] then 8
  else if m = ['S', 'e', 'p', 't', 'e', 'm', 'b', 'e', 'r'] then 9
  else if m = ['O', 'c', 't', 'o', 'b', 'e', 'r'] then 10
  else if m = ['N', 'o', 'v', 'e', 'm', 'b', 'e', 'r'] then 11
  else if m = ['D', 'e', 'c', 'e', 'm', 'b', 'e', 'r'] then 12
  else 1

/-- `parse_date_to_sortable` (`src/cache.rs` lines 389-424): turn a
source-formatted date string into a sortable one.  Empty input maps to
the empty string; input without a `", "` separator is returned
unchanged; otherwise the date part is rebuilt zero-padded and the time
part is copied verbatim. -/
def parse_date_to_sortable (date_str : Str) : Str :=
  if date_str.isEmpty then []
  else
    let parts := splitCommaSpace date_str
    if parts.length < 2 then date_str
    else
      let month_day := (parts.get? 1).getD []
      let year_time := (parts.get? 2).getD []
      let md_parts := splitWs month_day
      let month_name := (md_parts.get? 0).getD []
      let day := (parseU32 ((md_parts.get? 1).getD ['1'])).getD 1
      let yt_parts := splitAtSep year_time
      let year := (parseU32 ((yt_parts.get? 0).getD ['1', '9', '7', '0'])).getD 1970
      let time := (yt_parts.get? 1).getD ['0', '0', ':', '0', '0', ':', '0', '0']
      let month := monthNum month_name
      padNum 4 year ++ ['-'] ++ padNum 2 month ++ ['-'] ++ padNum 2 day ++ [' '] ++ time

/-- The comparator of `get_recent_albums`: descending by the sortable
form of `date_added`. -/
def recentCmp (a b : CachedTrack) : Ordering :=
  compareStr (parse_date_to_sortable b.date_added) (parse_date_to_sortable a.date_added)

/-- The dedup-and-take walk of `get_recent_albums`: first artist seen per
distinct nonempty album, up to `limit` entries. -/
def collectRecent (seen : List Str) (limit : Nat) : List CachedTrack → List (Str × Str)
  | [] => []
  | t :: rest =>
    if t.album.isEmpty ∨ t.album ∈ seen then collectRecent seen limit rest
    else
      match limit with
      | 0 => []
      | l + 1 => (t.album, t.artist) :: collectRecent (t.album :: seen) l rest

/-- `TrackCache::get_recent_albums` (`src/cache.rs` lines 351-372): sort
all records by descending sortable date, then collect the first
`limit` distinct nonempty albums. -/
def TrackCache.get_recent_albums (c : TrackCache) (limit : Nat) : List (Str × Str) :=
  collectRecent [] limit (sortByCmp recentCmp c.tracks)

/-! ## The consumer and the cache sync thread (`src/app.rs`) -/

/-- The messages of the cache channel (`CacheResponse` in
`src/app.rs`). -/
inductive CacheResponse where
  | batchLoaded (tracks : List CachedTrack) (loaded total : Nat)
  | upsert (tracks : List CachedTrack) (total : Nat)
  | complete
deriving DecidableEq, Repr

/-- What applying one message does besides mutating the cache. -/
structure ApplyEffect where
  cache : TrackCache
  notice : Option Nat
  saved : Bool
deriving DecidableEq, Repr

/-- The `CacheResponse::BatchLoaded` arm of `App::poll_cache_responses`
(`src/app.rs` lines 587-601): append the batch, adopt the reported
total, then save with a fresh timestamp when the build completes, or
save without one every 100th record. -/
def applyBatchResponse (c : TrackCache) (tracks : List CachedTrack)
    (loaded total now : Nat) : ApplyEffect :=
  let c1 := { c.add_tracks tracks with total_tracks := total }
  if total ≤ loaded then
    { cache := c1.update_timestamp now, notice := none, saved := true }
  else if loaded % 100 = 0 then
    { cache := c1, notice := none, saved := true }
  else
    { cache := c1, notice := none, saved := false }

/-- The `CacheResponse::Upsert` arm of `App::poll_cache_responses`
(`src/app.rs` lines 602-616): merge the batch, adopt the reported
total; only when `added_count > 0` surface a notice, bump the
timestamp and save. -/
def applyUpsertResponse (c : TrackCache) (tracks : List CachedTrack)
    (total now : Nat) : ApplyEffect :=
  let r := c.upsert_tracks tracks
  let c1 := { r.1 with total_tracks := total }
  if 0 < r.2 then
    { cache := c1.update_timestamp now, notice := some r.2, saved := true }
  else
    { cache := c1, notice := none, saved := false }

/-- The full-build loop of the cache sync thread (`src/app.rs` lines
287-317), fuel-based: while the offset is below the reported total,
fetch a batch of 50 starting at `offset + 1`, advance the offset by
the returned length and emit one `BatchLoaded` message; a fetch
failure breaks the loop. -/
def fullBuildLoop (fetchB : Nat → Nat → Option (List CachedTrack)) (total : Nat) :
    Nat → Nat → List CacheResponse
  | 0, _ => []
  | fuel + 1, offset =>
    if offset < total then
      match fetchB (offset + 1) 50 with
      | some ts =>
        .batchLoaded ts (offset + ts.length) total ::
          fullBuildLoop fetchB total fuel (offset + ts.length)
      | none => []
    else []

/-- The cache sync thread (`src/app.rs` lines 243-319) as the list of
messages it sends, parameterized by the library source.  With a
complete cache it runs the incremental branch: fetch everything added
since `last_updated - 86400` and emit an `Upsert` only when the fetch
succeeded with a nonempty result; otherwise it resumes the full build
from `loaded_tracks`.  Every path ends with `Complete`. -/
def cacheSyncThread (fetchTotal : Nat)
    (fetchSince : Nat → Option (List CachedTrack))
    (fetchB : Nat → Nat → Option (List CachedTrack))
    (cacheLoaded : Nat) (cacheLastUpdated : Option Nat) (cacheComplete : Bool)
    (fuel : Nat) : List CacheResponse :=
  if fetchTotal = 0 then [.complete]
  else if cacheComplete then
    (match cacheLastUpdated with
     | some lu =>
       match fetchSince (lu - 86400) with
       | some ts => if ts.isEmpty then [] else [.upsert ts fetchTotal]
       | none => []
     | none => []) ++ [.complete]
  else
    fullBuildLoop fetchB fetchTotal fuel cacheLoaded ++ [.complete]

/-- The batch fetch of a library source holding the track list `lib`:
`get_tracks_batch(start_1indexed, count)`. -/
def libFetch (lib : List CachedTrack) (start count : Nat) : Option (List CachedTrack) :=
  some ((lib.drop (start - 1)).take count)

/-- The message dispatcher of `App::poll_cache_responses`: the
`Complete` arm only clears the loading flag of the app and leaves the
cache untouched with no I/O. -/
def applyResponse (c : TrackCache) (now : Nat) : CacheResponse → ApplyEffect
  | .batchLoaded ts loaded total => applyBatchResponse c ts loaded total now
  | .upsert ts total => applyUpsertResponse c ts total now
  | .complete => { cache := c, notice := none, saved := false }

/-! ## Specification-side vocabulary -/

/-- The identity triple of a record. -/
def keyOf (t : CachedTrack) : Str × Str × Str := (t.name, t.artist, t.album)

/-- Some stored record matches the incoming record's key. -/
def hasMatch (ts : List CachedTrack) (nt : CachedTrack) : Prop :=
  ∃ t ∈ ts, sameKey t nt

instance (ts : List CachedTrack) (nt : CachedTrack) : Decidable (hasMatch ts nt) := by
  unfold hasMatch; infer_instance

/-- A record whose stored search key is the derived one (as every record
built by `CachedTrack::new` is). -/
def wfKey (t : CachedTrack) : Prop :=
  t.search_key = computeSearchKey t.name t.artist t.album

instance (t : CachedTrack) : Decidable (wfKey t) := by
  unfold wfKey; infer_instance

/-- Specification count: the number of incoming records that find no
key-matching record in the store at the moment they are processed. -/
def countNewKeys : List CachedTrack → List CachedTrack → Nat
  | _, [] => 0
  | ts, nt :: rest =>
    if hasMatch ts nt then countNewKeys ts rest
    else countNewKeys (ts ++ [nt]) rest + 1

/-- Replace the first key-matching record by the incoming record with a
freshly derived search key (the abstract effect of an upsert hit). -/
def replaceFirst : List CachedTrack → CachedTrack → List CachedTrack
  | [], _ => []
  | t :: ts, nt =>
    if sameKey t nt then CachedTrack.init_search_key nt :: ts
    else t :: replaceFirst ts nt

/-- The first stored record matching the incoming record's key. -/
def firstMatch (ts : List CachedTrack) (nt : CachedTrack) : Option CachedTrack :=
  ts.find? (fun t => decide (sameKey t nt))

/-- Rebuild a query string from whitespace-free tokens. -/
def joinWords : List Str → Str
  | [] => []
  | [w] => w
  | w :: ws => w ++ ' ' :: joinWords ws

/-- A token the classification loop of `search` treats as a field filter
(its lower-casing starts with one of the three field prefixes). -/
def isFieldToken (w : Str) : Bool :=
  namePfx.isPrefixOf (lowerStr w) || artistPfx.isPrefixOf (lowerStr w) ||
    albumPfx.isPrefixOf (lowerStr w)

/-! ## Concrete instances used by witnesses and counterexamples -/

/-- A sample record. -/
def trackA : CachedTrack :=
  CachedTrack.new ['a'] ['b'] ['c'] ['d'] 1 1 1 ['t'] 1 false

/-- The same identity triple as `trackA` with a different play count. -/
def trackA2 : CachedTrack :=
  CachedTrack.new ['a'] ['b'] ['c'] ['d'] 1 1 1 ['t'] 2 false

/-- A record with a brand-new identity triple. -/
def trackB : CachedTrack :=
  CachedTrack.new ['n'] ['m'] ['o'] ['d'] 2 2 2 ['u'] 3 true

/-- A one-record cache holding `trackA`. -/
def cacheA : TrackCache :=
  { TrackCache.default with tracks := [trackA], loaded_tracks := 1, total_tracks := 1 }

/-- A record whose artist field is exactly `IO`. -/
def ioTrack : CachedTrack :=
  CachedTrack.new ['x'] ['I', 'O'] ['y'] [] 0 0 0 [] 0 false

/-- A record whose artist field is `IO Extended`. -/
def extendedTrack : CachedTrack :=
  CachedTrack.new ['z'] ['I', 'O', ' ', 'E', 'x', 't', 'e', 'n', 'd', 'e', 'd'] ['y'] []
    0 0 0 [] 0 false

/-- A record whose artist field is `studio` (lower-case). -/
def trackStudio : CachedTrack :=
  CachedTrack.new ['w'] ['s', 't', 'u', 'd', 'i', 'o'] ['y'] [] 0 0 0 [] 0 false

/-- A three-record cache exercising the search examples. -/
def ioCache : TrackCache :=
  { TrackCache.default with
    tracks := [ioTrack, extendedTrack, trackStudio]
    loaded_tracks := 3
    total_tracks := 3 }

/-- A parsed cache file whose stored `loaded_tracks` disagrees with its
record list. -/
def badStored : StoredCache :=
  { total_tracks := 0, loaded_tracks := 5, last_updated := none, tracks := [] }

/-- The sample date string of the source comment:
`Sunday, September 13, 2015 at 3:44:42`. -/
def sundayDate : Str :=
  ['S','u','n','d','a','y',',',' ','S','e','p','t','e','m','b','e','r',' ',
   '1','3',',',' ','2','0','1','5',' ','a','t',' ','3',':','4','4',':','4','2']

/-- An unparseable date string with no `", "` separator. -/
def garbageDate : Str := ['g','a','r','b','a','g','e']

/-- The twelve month names recognized by `parse_date_to_sortable`. -/
def monthNames : List Str :=
  [['J', 'a', 'n', 'u', 'a', 'r', 'y'], ['F', 'e', 'b', 'r', 'u', 'a', 'r', 'y'],
   ['M', 'a', 'r', 'c', 'h'], ['A', 'p', 'r', 'i', 'l'], ['M', 'a', 'y'],
   ['J', 'u', 'n', 'e'], ['J', 'u', 'l', 'y'], ['A', 'u', 'g', 'u', 's', 't'],
   ['S', 'e', 'p', 't', 'e', 'm', 'b', 'e', 'r'], ['O', 'c', 't', 'o', 'b', 'e', 'r'],
   ['N', 'o', 'v', 'e', 'm', 'b', 'e', 'r'], ['D', 'e', 'c', 'e', 'm', 'b', 'e', 'r']]

/-- A 120-record library for the end-to-end build scenario. -/
def lib120 : List CachedTrack := List.replicate 120 trackA

/-! ## C4: load never fails outward -/

/-- C4 (counterexample): the claim asserts that a corrupt (undeserializable)
file also yields a cache flagged as freshly built; at the concrete input
`fileContent none` the code's `unwrap_or_default()` leaves
`is_fresh_build = false`, so the claim as stated is false. -/
theorem load_corrupt_not_fresh :
    (TrackCache.load (.fileContent none)).is_fresh_build = false := by
  decide

/-- C4 (amended): `load` never fails outward.  An unresolvable cache
path, a missing file, or a read error each yield the default empty
cache (`total_tracks = 0`, `loaded_tracks = 0`, no records,
`last_updated = none`) flagged as freshly built; a file that exists
and is read but fails to deserialize silently yields that same empty
default, but with `is_fresh_build = false` (not flagged). -/
theorem load_error_handling :
    (∀ i : LoadInput,
      i = .noCacheDir ∨ i = .fileMissing ∨ i = .readFailed →
        TrackCache.load i = { TrackCache.default with is_fresh_build := true }
        ∧ (TrackCache.load i).total_tracks = 0
        ∧ (TrackCache.load i).loaded_tracks = 0
        ∧ (TrackCache.load i).tracks = []
        ∧ (TrackCache.load i).last_updated = none
        ∧ (TrackCache.load i).is_fresh_build = true)
    ∧ TrackCache.load (.fileContent none) = TrackCache.default
    ∧ (TrackCache.load (.fileContent none)).is_fresh_build = false := by
  refine ⟨?_, by decide, by decide⟩
  rintro i (rfl | rfl | rfl) <;> exact ⟨rfl, rfl, rfl, rfl, rfl, rfl⟩

/-- C4 witness: the amended theorem applied at the concrete input
`fileMissing`. -/
theorem load_error_handling_witness :
    TrackCache.load .fileMissing = { TrackCache.default with is_fresh_build := true } :=
  (load_error_handling.1 .fileMissing (Or.inr (Or.inl rfl))).1

/-! ## C8: the loaded_tracks invariant -/

/-- C8 (counterexample): `load` does not re-establish the invariant: a
successfully parsed file whose stored `loaded_tracks` is 5 with an
empty record list loads verbatim, so the loaded cache violates
`loaded_tracks = number of stored records`. -/
theorem load_breaks_loaded_invariant :
    (TrackCache.load (.fileContent (some badStored))).loaded_tracks = 5
    ∧ (TrackCache.load (.fileContent (some badStored))).tracks.length = 0
    ∧ (TrackCache.load (.fileContent (some badStored))).loaded_tracks
        ≠ (TrackCache.load (.fileContent (some badStored))).tracks.length := by
  decide

/-- C8 (amended): `loaded_tracks = length of the stored record list`
holds for the default cache, is re-established by every `add_tracks`
and every `upsert_tracks`, and holds for every cache loaded from a
missing/unreadable/corrupt file; but a cache loaded from a
successfully parsed file carries the file's `loaded_tracks` verbatim,
so it satisfies the invariant iff the serialized data did (`load`
preserves the invariant of files written by `save` but does not
re-establish it). -/
theorem loaded_tracks_invariant :
    TrackCache.default.loaded_tracks = TrackCache.default.tracks.length
    ∧ (∀ (c : TrackCache) (nts : List CachedTrack),
        (c.add_tracks nts).loaded_tracks = (c.add_tracks nts).tracks.length)
    ∧ (∀ (c : TrackCache) (nts : List CachedTrack),
        (c.upsert_tracks nts).1.loaded_tracks = (c.upsert_tracks nts).1.tracks.length)
    ∧ (∀ i : LoadInput,
        i = .noCacheDir ∨ i = .fileMissing ∨ i = .readFailed ∨ i = .fileContent none →
          (TrackCache.load i).loaded_tracks = (TrackCache.load i).tracks.length)
    ∧ (∀ d : StoredCache,
        (TrackCache.load (.fileContent (some d))).loaded_tracks
            = (TrackCache.load (.fileContent (some d))).tracks.length
          ↔ d.loaded_tracks = d.tracks.length) := by
  refine ⟨rfl, fun c nts => rfl, fun c nts => rfl, ?_, ?_⟩
  · rintro i (rfl | rfl | rfl | rfl) <;> rfl
  · intro d
    simp [TrackCache.load]

/-- C8 witness: the amended theorem applied at concrete inputs. -/
theorem loaded_tracks_invariant_witness :
    (TrackCache.load .readFailed).loaded_tracks = (TrackCache.load .readFailed).tracks.length
    ∧ (cacheA.upsert_tracks [trackB]).1.loaded_tracks
        = (cacheA.upsert_tracks [trackB]).1.tracks.length :=
  ⟨loaded_tracks_invariant.2.2.2.1 .readFailed (Or.inr (Or.inr (Or.inl rfl))),
   loaded_tracks_invariant.2.2.1 cacheA [trackB]⟩

/-! ## C3: incremental-refresh upsert handling -/

/-- C3 (counterexample): applying an `Upsert` message that is a pure
update of an existing record (`added_count = 0`) does change the
in-memory record data (the play count is merged), but no save is
issued, contradicting the claim that the merged values are still
persisted to disk. -/
theorem upsert_pure_update_not_saved :
    (applyUpsertResponse cacheA [trackA2] 1 99).saved = false
    ∧ (applyUpsertResponse cacheA [trackA2] 1 99).cache.tracks ≠ cacheA.tracks
    ∧ (cacheA.upsert_tracks [trackA2]).2 = 0 := by
  decide

/-- C3 (amended): on an `Upsert` message, `last_updated` is advanced
(and a save issued, and a notice surfaced) iff at least one record was
genuinely new; when `added_count = 0` the merged field values are
applied to the in-memory cache but no save is issued and the
timestamp stays; and when the incremental fetch returns zero records
the sync thread emits no `Upsert` message at all — only `Complete`,
whose handler leaves the cache untouched with no save. -/
theorem upsert_response_behavior :
    (∀ (c : TrackCache) (ts : List CachedTrack) (total now : Nat),
        ((applyUpsertResponse c ts total now).saved = true ↔ 0 < (c.upsert_tracks ts).2)
      ∧ ((applyUpsertResponse c ts total now).cache.last_updated
          = if 0 < (c.upsert_tracks ts).2 then some now else c.last_updated)
      ∧ (applyUpsertResponse c ts total now).cache.tracks = (c.upsert_tracks ts).1.tracks
      ∧ ((applyUpsertResponse c ts total now).notice
          = if 0 < (c.upsert_tracks ts).2 then some (c.upsert_tracks ts).2 else none))
    ∧ (∀ (total : Nat) (fs : Nat → Option (List CachedTrack))
        (fb : Nat → Nat → Option (List CachedTrack)) (loaded lu fuel : Nat),
        total ≠ 0 → fs (lu - 86400) = some [] →
          cacheSyncThread total fs fb loaded (some lu) true fuel = [.complete])
    ∧ (∀ (c : TrackCache) (now : Nat),
        (applyResponse c now .complete).cache = c
        ∧ (applyResponse c now .complete).saved = false) := by
  refine ⟨?_, ?_, fun c now => ⟨rfl, rfl⟩⟩
  · intro c ts total now
    simp only [applyUpsertResponse, TrackCache.update_timestamp, TrackCache.upsert_tracks]
    by_cases h : 0 < (upsertList c.tracks ts).2 <;> simp [h]
  · intro total fs fb loaded lu fuel htot hfs
    unfold cacheSyncThread
    simp [htot, hfs]

/-- C3 witness: the amended theorem applied at concrete inputs. -/
theorem upsert_response_behavior_witness :
    ((applyUpsertResponse cacheA [trackA2] 1 99).saved = true
      ↔ 0 < (cacheA.upsert_tracks [trackA2]).2)
    ∧ cacheSyncThread 1 (fun _ => some []) (fun _ _ => none) 0 (some 7) true 3
        = [.complete] :=
  ⟨(upsert_response_behavior.1 cacheA [trackA2] 1 99).1,
   upsert_response_behavior.2.1 1 (fun _ => some []) (fun _ _ => none) 0 7 3
     (by decide) rfl⟩

/-! ## Upsert lemmas (C1, C2) -/

theorem not_hasMatch_iff {ts : List CachedTrack} {nt : CachedTrack} :
    ¬ hasMatch ts nt ↔ ∀ u ∈ ts, ¬ sameKey u nt := by
  simp [hasMatch]

theorem sameKey_iff_keyOf {a b : CachedTrack} : sameKey a b ↔ keyOf a = keyOf b := by
  unfold sameKey keyOf
  simp [Prod.ext_iff]

theorem keyOf_init (t : CachedTrack) : keyOf (CachedTrack.init_search_key t) = keyOf t := rfl

theorem updateExisting_eq_init {ex nt : CachedTrack} (h : sameKey ex nt) :
    updateExisting ex nt = CachedTrack.init_search_key nt := by
  obtain ⟨h1, h2, h3⟩ := h
  cases ex; cases nt
  simp_all [updateExisting, CachedTrack.init_search_key]

theorem upsertOne_found (nt t : CachedTrack) (b : List CachedTrack) :
    ∀ a : List CachedTrack, (∀ u ∈ a, ¬ sameKey u nt) → sameKey t nt →
      upsertOne (a ++ t :: b) nt = (a ++ updateExisting t nt :: b, false) := by
  intro a
  induction a with
  | nil => intro _ ht; simp [upsertOne, ht]
  | cons u a ih =>
    intro ha ht
    have hu : ¬ sameKey u nt := ha u (List.mem_cons_self u a)
    have ih' := ih (fun v hv => ha v (List.mem_cons_of_mem u hv)) ht
    simp [upsertOne, hu, ih']

theorem upsertOne_notfound (nt : CachedTrack) :
    ∀ ts : List CachedTrack, (∀ u ∈ ts, ¬ sameKey u nt) →
      upsertOne ts nt = (ts ++ [nt], true) := by
  intro ts
  induction ts with
  | nil => intro _; rfl
  | cons u ts ih =>
    intro h
    have hu := h u (List.mem_cons_self u ts)
    simp [upsertOne, hu, ih (fun v hv => h v (List.mem_cons_of_mem u hv))]

theorem upsertOne_of_hasMatch (nt : CachedTrack) :
    ∀ ts, hasMatch ts nt → upsertOne ts nt = (replaceFirst ts nt, false) := by
  intro ts
  induction ts with
  | nil => intro h; exact absurd h (by simp [hasMatch])
  | cons u ts ih =>
    intro h
    by_cases hu : sameKey u nt
    · simp [upsertOne, replaceFirst, hu, updateExisting_eq_init hu]
    · have h' : hasMatch ts nt := by
        rcases h with ⟨t, ht, hk⟩
        rcases List.mem_cons.mp ht with rfl | htm
        · exact absurd hk hu
        · exact ⟨t, htm, hk⟩
      simp [upsertOne, replaceFirst, hu, ih h']

theorem replaceFirst_map_keyOf (nt : CachedTrack) :
    ∀ ts, (replaceFirst ts nt).map keyOf = ts.map keyOf := by
  intro ts
  induction ts with
  | nil => rfl
  | cons u ts ih =>
    by_cases hu : sameKey u nt
    · have hk : keyOf (CachedTrack.init_search_key nt) = keyOf u := by
        rw [keyOf_init]
        exact (sameKey_iff_keyOf.mp hu).symm
      simp [replaceFirst, hu, hk]
    · simp [replaceFirst, hu, ih]

theorem hasMatch_iff_keys {ts : List CachedTrack} {nt : CachedTrack} :
    hasMatch ts nt ↔ keyOf nt ∈ ts.map keyOf := by
  simp [hasMatch, sameKey_iff_keyOf, List.mem_map, eq_comm]

theorem upsertOne_map_keyOf (ts : List CachedTrack) (nt : CachedTrack) :
    (upsertOne ts nt).1.map keyOf
      = if hasMatch ts nt then ts.map keyOf else ts.map keyOf ++ [keyOf nt] := by
  by_cases h : hasMatch ts nt
  · rw [upsertOne_of_hasMatch nt ts h]
    simp [h, replaceFirst_map_keyOf]
  · rw [upsertOne_notfound nt ts (not_hasMatch_iff.mp h)]
    simp [h]

theorem upsertOne_snd_eq (ts : List CachedTrack) (nt : CachedTrack) :
    (upsertOne ts nt).2 = !decide (hasMatch ts nt) := by
  by_cases h : hasMatch ts nt
  · rw [upsertOne_of_hasMatch nt ts h]; simp [h]
  · rw [upsertOne_notfound nt ts (not_hasMatch_iff.mp h)]; simp [h]

theorem upsertList_congr_keys :
    ∀ (B ts us : List CachedTrack), ts.map keyOf = us.map keyOf →
      (upsertList ts B).2 = (upsertList us B).2
      ∧ (upsertList ts B).1.map keyOf = (upsertList us B).1.map keyOf := by
  intro B
  induction B with
  | nil => intro ts us h; exact ⟨rfl, h⟩
  | cons nt B ih =>
    intro ts us h
    have hm : hasMatch ts nt ↔ hasMatch us nt := by
      rw [hasMatch_iff_keys, hasMatch_iff_keys, h]
    have hks : (upsertOne ts nt).1.map keyOf = (upsertOne us nt).1.map keyOf := by
      rw [upsertOne_map_keyOf, upsertOne_map_keyOf, h]
      by_cases hmt : hasMatch ts nt
      · simp [hmt, hm.mp hmt]
      · have hus : ¬ hasMatch us nt := fun hx => hmt (hm.mpr hx)
        simp [hmt, hus]
    have hsnd : (upsertOne ts nt).2 = (upsertOne us nt).2 := by
      rw [upsertOne_snd_eq, upsertOne_snd_eq]
      by_cases hmt : hasMatch ts nt
      · simp [hmt, hm.mp hmt]
      · have hus : ¬ hasMatch us nt := fun hx => hmt (hm.mpr hx)
        simp [hmt, hus]
    obtain ⟨ih1, ih2⟩ := ih (upsertOne ts nt).1 (upsertOne us nt).1 hks
    refine ⟨?_, ?_⟩
    · simp only [upsertList]
      rw [hsnd, ih1]
    · simp only [upsertList]
      exact ih2

theorem upsertList_count :
    ∀ (B ts : List CachedTrack), (upsertList ts B).2 = countNewKeys ts B := by
  intro B
  induction B with
  | nil => intro ts; rfl
  | cons nt B ih =>
    intro ts
    by_cases h : hasMatch ts nt
    · have hone := upsertOne_of_hasMatch nt ts h
      have hcong :=
        (upsertList_congr_keys B (replaceFirst ts nt) ts (replaceFirst_map_keyOf nt ts)).1
      simp only [upsertList, countNewKeys, hone, if_pos h]
      simpa using hcong.trans (ih ts)
    · have hone := upsertOne_notfound nt ts (not_hasMatch_iff.mp h)
      simp only [upsertList, countNewKeys, hone, if_neg h]
      simp [ih (ts ++ [nt]), Nat.add_comm]

/-! ## C1: per-record merge behavior of upsert_tracks -/

/-- C1: each incoming record is processed as the claim states.  When the
first key-matching stored record exists (store `a ++ t :: b` with no
match in `a`, `t` matching), only that record is rewritten in place —
its identity triple is kept, all mutable fields are taken from the
incoming record, the search key is re-derived — no record is appended
and the store length is unchanged.  When no stored record matches, the
incoming record is appended and the length grows by one.  The returned
`added_count` is the number of incoming records with no matching key at
the moment they are processed, and `loaded_tracks` is recomputed from
the final store length. -/
theorem upsert_tracks_per_record :
    (∀ (nt t : CachedTrack) (a b : List CachedTrack),
        (∀ u ∈ a, ¬ sameKey u nt) → sameKey t nt →
          upsertOne (a ++ t :: b) nt = (a ++ updateExisting t nt :: b, false)
          ∧ (a ++ updateExisting t nt :: b).length = (a ++ t :: b).length)
    ∧ (∀ (t nt : CachedTrack),
        (updateExisting t nt).name = t.name
        ∧ (updateExisting t nt).artist = t.artist
        ∧ (updateExisting t nt).album = t.album
        ∧ (updateExisting t nt).date_added = nt.date_added
        ∧ (updateExisting t nt).year = nt.year
        ∧ (updateExisting t nt).track_number = nt.track_number
        ∧ (updateExisting t nt).disc_number = nt.disc_number
        ∧ (updateExisting t nt).time = nt.time
        ∧ (updateExisting t nt).played_count = nt.played_count
        ∧ (updateExisting t nt).favorited = nt.favorited
        ∧ (updateExisting t nt).search_key = computeSearchKey t.name t.artist t.album)
    ∧ (∀ (nt : CachedTrack) (ts : List CachedTrack),
        ¬ hasMatch ts nt →
          upsertOne ts nt = (ts ++ [nt], true)
          ∧ (ts ++ [nt]).length = ts.length + 1)
    ∧ (∀ (c : TrackCache) (batch : List CachedTrack),
        (c.upsert_tracks batch).2 = countNewKeys c.tracks batch
        ∧ (c.upsert_tracks batch).1.loaded_tracks
            = (c.upsert_tracks batch).1.tracks.length) := by
  refine ⟨?_, ?_, ?_, ?_⟩
  · intro nt t a b ha ht
    refine ⟨upsertOne_found nt t b a ha ht, by simp⟩
  · intro t nt
    exact ⟨rfl, rfl, rfl, rfl, rfl, rfl, rfl, rfl, rfl, rfl, rfl⟩
  · intro nt ts h
    refine ⟨upsertOne_notfound nt ts (not_hasMatch_iff.mp h), by simp⟩
  · intro c batch
    exact ⟨upsertList_count batch c.tracks, rfl⟩

/-- C1 witness: the parts of the theorem applied at concrete inputs
(an update hit on `cacheA`'s store and a miss). -/
theorem upsert_tracks_per_record_witness :
    upsertOne [trackA] trackA2 = ([updateExisting trackA trackA2], false)
    ∧ upsertOne [trackA] trackB = ([trackA, trackB], true)
    ∧ (cacheA.upsert_tracks [trackA2, trackB]).2 = countNewKeys cacheA.tracks [trackA2, trackB] :=
  ⟨(upsert_tracks_per_record.1 trackA2 trackA [] [] (by simp) (by decide)).1,
   (upsert_tracks_per_record.2.2.1 trackB [trackA] (by decide)).1,
   (upsert_tracks_per_record.2.2.2 cacheA [trackA2, trackB]).1⟩

/-! ## C9: the 120-track full build scenario -/

theorem fullBuildLoop_step (f : Nat → Nat → Option (List CachedTrack))
    (total fuel offset : Nat) (ts : List CachedTrack)
    (h : offset < total) (hf : f (offset + 1) 50 = some ts) :
    fullBuildLoop f total (fuel + 1) offset
      = .batchLoaded ts (offset + ts.length) total ::
          fullBuildLoop f total fuel (offset + ts.length) := by
  simp [fullBuildLoop, h, hf]

theorem fullBuildLoop_done (f : Nat → Nat → Option (List CachedTrack))
    (total fuel offset : Nat) (h : ¬ offset < total) :
    fullBuildLoop f total fuel offset = [] := by
  cases fuel <;> simp [fullBuildLoop, h]

/-- C9: with a source reporting 120 tracks and an empty cache, the full
build issues exactly 3 batch fetches yielding 50, 50 and 20 records
(messages at offsets 50, 100, 120) followed by `Complete`; after the
consumer applies the three batches in order, the cache holds all 120
records with `loaded_tracks = 120 = total_tracks`, `is_complete()`
holds, and the completing batch triggers a save with `last_updated`
stamped. -/
theorem full_build_scenario (lib : List CachedTrack) (c0 : TrackCache)
    (fs : Nat → Option (List CachedTrack)) (fuel now1 now2 now3 : Nat)
    (hlib : lib.length = 120) (htr : c0.tracks = []) (hld : c0.loaded_tracks = 0) :
    cacheSyncThread 120 fs (libFetch lib) c0.loaded_tracks c0.last_updated
        (decide c0.is_complete) (fuel + 3)
      = [.batchLoaded (lib.take 50) 50 120,
         .batchLoaded ((lib.drop 50).take 50) 100 120,
         .batchLoaded (lib.drop 100) 120 120, .complete]
    ∧ (lib.take 50).length = 50
    ∧ ((lib.drop 50).take 50).length = 50
    ∧ (lib.drop 100).length = 20
    ∧ (applyResponse (applyResponse (applyResponse c0 now1
          (.batchLoaded (lib.take 50) 50 120)).cache now2
          (.batchLoaded ((lib.drop 50).take 50) 100 120)).cache now3
          (.batchLoaded (lib.drop 100) 120 120))
        = { cache := { total_tracks := 120, loaded_tracks := 120,
                       last_updated := some now3, tracks := lib,
                       search_keys_built := c0.search_keys_built,
                       is_fresh_build := c0.is_fresh_build },
            notice := none, saved := true }
    ∧ TrackCache.is_complete
        { total_tracks := 120, loaded_tracks := 120, last_updated := some now3,
          tracks := lib, search_keys_built := c0.search_keys_built,
          is_fresh_build := c0.is_fresh_build } := by
  have l1 : (lib.take 50).length = 50 := by
    rw [List.length_take, hlib]
    omega
  have l2 : ((lib.drop 50).take 50).length = 50 := by
    rw [List.length_take, List.length_drop, hlib]
    omega
  have l3 : (lib.drop 100).length = 20 := by
    rw [List.length_drop, hlib]
  have ht3 : (lib.drop 100).take 50 = lib.drop 100 :=
    List.take_of_length_le (by rw [l3]; omega)
  have hnc : ¬ c0.is_complete := by
    rw [TrackCache.is_complete, hld]
    rintro ⟨h1, h2⟩
    omega
  have hloop : fullBuildLoop (libFetch lib) 120 (fuel + 3) 0
      = [.batchLoaded (lib.take 50) 50 120,
         .batchLoaded ((lib.drop 50).take 50) 100 120,
         .batchLoaded (lib.drop 100) 120 120] := by
    rw [show fuel + 3 = (fuel + 2) + 1 from rfl,
        fullBuildLoop_step _ _ _ _ (lib.take 50) (by omega) (by simp [libFetch])]
    rw [l1]
    norm_num
    rw [show fuel + 2 = (fuel + 1) + 1 from rfl,
        fullBuildLoop_step _ _ _ _ ((lib.drop 50).take 50) (by omega) (by simp [libFetch])]
    rw [l2]
    norm_num
    rw [fullBuildLoop_step _ _ _ _ (lib.drop 100) (by omega) (by simp [libFetch, ht3])]
    rw [l3]
    norm_num
    exact fullBuildLoop_done _ _ _ _ (by omega)
  have hsplit : lib.take 50 ++ ((lib.drop 50).take 50 ++ lib.drop 100) = lib := by
    rw [show (100 : Nat) = 50 + 50 from rfl, ← List.drop_drop]
    rw [List.take_append_drop, List.take_append_drop]
  refine ⟨?_, l1, l2, l3, ?_, ⟨by norm_num, by norm_num⟩⟩
  · rw [cacheSyncThread.eq_def]
    simp only [decide_eq_false hnc, hld]
    norm_num [hloop]
  · simp only [applyResponse, applyBatchResponse, TrackCache.add_tracks,
      TrackCache.update_timestamp, htr]
    norm_num [l1, l2, l3, List.append_assoc, hsplit, hlib]

/-- C9 witness: the scenario theorem applied to a concrete 120-track
library and the default (empty) cache. -/
theorem full_build_scenario_witness :
    cacheSyncThread 120 (fun _ => none) (libFetch lib120) TrackCache.default.loaded_tracks
        TrackCache.default.last_updated (decide TrackCache.default.is_complete) 3
      = [.batchLoaded (lib120.take 50) 50 120,
         .batchLoaded ((lib120.drop 50).take 50) 100 120,
         .batchLoaded (lib120.drop 100) 120 120, .complete]
    ∧ (lib120.drop 100).length = 20 := by
  have h := full_build_scenario lib120 TrackCache.default (fun _ => none) 0 1 2 3
    (by simp [lib120]) rfl rfl
  exact ⟨h.1, h.2.2.2.1⟩

/-! ## Search lemmas (C6, C7, C10) -/

theorem search_mem_iff (c : TrackCache) (q : Str) (r : CachedTrack) :
    r ∈ (c.search q).2 ↔
      r ∈ c.ensure_search_keys.tracks
      ∧ trackMatches (collectFilters (splitWs q)) r = true := by
  simp [TrackCache.search, List.mem_filter]

theorem trackMatches_iff (fs : SearchFilters) (r : CachedTrack) :
    trackMatches fs r = true ↔
      (∀ f ∈ fs.nameF, field_match r.name f.1 f.2 = true)
      ∧ (∀ f ∈ fs.artistF, field_match r.artist f.1 f.2 = true)
      ∧ (∀ f ∈ fs.albumF, field_match r.album f.1 f.2 = true)
      ∧ (∀ w ∈ fs.general,
          (hasUpperChar w = true →
            containsSub (r.name ++ [' '] ++ r.artist ++ [' '] ++ r.album) w = true)
          ∧ (hasUpperChar w = false →
            containsSub r.search_key (lowerStr w) = true)) := by
  have hgen : ∀ w : Str,
      ((if hasUpperChar w then
          containsSub (r.name ++ [' '] ++ r.artist ++ [' '] ++ r.album) w
        else containsSub r.search_key (lowerStr w)) = true)
      ↔ ((hasUpperChar w = true →
            containsSub (r.name ++ [' '] ++ r.artist ++ [' '] ++ r.album) w = true)
          ∧ (hasUpperChar w = false →
            containsSub r.search_key (lowerStr w) = true)) := by
    intro w
    cases hu : hasUpperChar w <;> simp [hu]
  unfold trackMatches
  simp only [Bool.and_eq_true, List.all_eq_true]
  simp only [hgen]
  tauto

theorem collectFilters_general :
    ∀ ws, (collectFilters ws).general = ws.filter (fun w => !(isFieldToken w)) := by
  intro ws
  induction ws with
  | nil => rfl
  | cons w ws ih =>
    by_cases h1 : namePfx.isPrefixOf (lowerStr w)
    · have hf : isFieldToken w = true := by simp [isFieldToken, h1]
      cases hp : parse_filter_value (w.drop 5) <;>
        simp [collectFilters, h1, hp, ih, hf]
    · by_cases h2 : artistPfx.isPrefixOf (lowerStr w)
      · have hf : isFieldToken w = true := by simp [isFieldToken, h2]
        cases hp : parse_filter_value (w.drop 7) <;>
          simp [collectFilters, h1, h2, hp, ih, hf]
      · by_cases h3 : albumPfx.isPrefixOf (lowerStr w)
        · have hf : isFieldToken w = true := by simp [isFieldToken, h3]
          cases hp : parse_filter_value (w.drop 6) <;>
            simp [collectFilters, h1, h2, h3, hp, ih, hf]
        · have hf : isFieldToken w = false := by simp [isFieldToken, h1, h2, h3]
          simp [collectFilters, h1, h2, h3, ih, hf]

/-! ## C6: smart-case matching of general query tokens -/

/-- C6: a record is in the search result iff it passes every field
filter and every general (non-field-filter) token of the query, where
a general token with an upper-case character must occur case-sensitively
in the concatenation of name/artist/album, and one without must occur in
the record's precomputed lower-cased search key after lower-casing the
token; the general tokens are exactly the whitespace tokens not starting
(case-insensitively) with a field prefix; the empty query returns the
whole record set; `io` matches the artist-`IO` record (and `studio`),
while `IO` matches only the records whose fields literally contain
`IO`. -/
theorem search_smart_case :
    (∀ (c : TrackCache) (q : Str) (r : CachedTrack),
        r ∈ (c.search q).2 ↔
          r ∈ c.ensure_search_keys.tracks
          ∧ (∀ f ∈ (collectFilters (splitWs q)).nameF, field_match r.name f.1 f.2 = true)
          ∧ (∀ f ∈ (collectFilters (splitWs q)).artistF, field_match r.artist f.1 f.2 = true)
          ∧ (∀ f ∈ (collectFilters (splitWs q)).albumF, field_match r.album f.1 f.2 = true)
          ∧ (∀ w ∈ (collectFilters (splitWs q)).general,
              (hasUpperChar w = true →
                containsSub (r.name ++ [' '] ++ r.artist ++ [' '] ++ r.album) w = true)
              ∧ (hasUpperChar w = false →
                containsSub r.search_key (lowerStr w) = true)))
    ∧ (∀ ws, (collectFilters ws).general = ws.filter (fun w => !(isFieldToken w)))
    ∧ (∀ c : TrackCache, (c.search []).2 = c.ensure_search_keys.tracks)
    ∧ (TrackCache.search ioCache ['i', 'o']).2 = [ioTrack, extendedTrack, trackStudio]
    ∧ (TrackCache.search ioCache ['I', 'O']).2 = [ioTrack, extendedTrack] := by
  refine ⟨?_, collectFilters_general, ?_, by decide, by decide⟩
  · intro c q r
    rw [search_mem_iff, trackMatches_iff]
  · intro c
    simp [TrackCache.search, splitWs, splitWsAux, collectFilters, trackMatches,
      List.filter_eq_self]

/-- C6 witness: the characterization applied to the concrete cache,
showing the `studio` record matches the lower-case query `io` but not
the upper-case query `IO`. -/
theorem search_smart_case_witness :
    trackStudio ∈ (TrackCache.search ioCache ['i', 'o']).2
    ∧ ¬ trackStudio ∈ (TrackCache.search ioCache ['I', 'O']).2 :=
  ⟨(search_smart_case.1 ioCache ['i', 'o'] trackStudio).mpr (by decide),
   fun h => by
    have h2 := (search_smart_case.1 ioCache ['I', 'O'] trackStudio).mp h
    exact absurd h2 (by decide)⟩

/-! ## C7: field-filter values and quoting -/

/-- C7: a field-filter value wrapped in matching double or single quotes
(with nonempty inside) becomes an exact filter, and an exact filter
admits a record iff the field equals the value; a value not of the
quoted shape (including unmatched/unterminated quotes) becomes a
substring filter on the raw value, never an error; every artist filter
collected from the query must pass for a record to be returned (AND);
and concretely, `artist:"IO"` on the sample cache returns only the
record whose artist field is exactly `IO`. -/
theorem getLast?_cons_concat (c a : Char) (l : Str) :
    (c :: (l ++ [a])).getLast? = some a := by
  rw [← List.cons_append, List.getLast?_concat]

theorem field_filter_exactness :
    (∀ inner : Str, inner ≠ [] →
        parse_filter_value ('"' :: inner ++ ['"']) = some (inner, true)
        ∧ parse_filter_value ('\'' :: inner ++ ['\'']) = some (inner, true))
    ∧ (∀ target key : Str, field_match target key true = true ↔ target = key)
    ∧ (∀ v : Str, v ≠ [] →
        ¬ (2 ≤ v.length ∧ ((v.head? = some '"' ∧ v.getLast? = some '"')
            ∨ (v.head? = some '\'' ∧ v.getLast? = some '\''))) →
        parse_filter_value v = some (v, false))
    ∧ (∀ target key : Str, field_match target key false = smart_case_match target key)
    ∧ (∀ (c : TrackCache) (q : Str) (r : CachedTrack),
        r ∈ (c.search q).2 →
          ∀ f ∈ (collectFilters (splitWs q)).artistF, field_match r.artist f.1 f.2 = true)
    ∧ (TrackCache.search ioCache (artistPfx ++ ['"', 'I', 'O', '"'])).2 = [ioTrack] := by
  refine ⟨?_, ?_, ?_, fun _ _ => rfl, ?_, by decide⟩
  · intro inner h
    have hlen1 : 2 ≤ ('"' :: inner ++ ['"']).length := by
      simp
    have hlen2 : 2 ≤ ('\'' :: inner ++ ['\'']).length := by
      simp
    constructor <;>
      simp [parse_filter_value, hlen1, hlen2, getLast?_cons_concat, List.dropLast_concat, h]
  · intro target key
    simp [field_match]
  · intro v hv hq
    have hne : v.isEmpty = false := by
      cases v with
      | nil => exact absurd rfl hv
      | cons c cs => rfl
    rw [parse_filter_value, if_neg (by simp [hne]), if_neg hq]
  · intro c q r hr
    exact ((search_mem_iff c q r).mp hr).2 |> (trackMatches_iff _ r).mp |> And.right |> And.left

/-- C7 witness: the quoting lemmas applied at the concrete value `IO`
and at the unterminated value `"IO`. -/
theorem field_filter_exactness_witness :
    parse_filter_value ['"', 'I', 'O', '"'] = some (['I', 'O'], true)
    ∧ parse_filter_value ['"', 'I', 'O'] = some (['"', 'I', 'O'], false)
    ∧ (field_match ['I', 'O'] ['I', 'O'] true = true ↔ (['I', 'O'] : Str) = ['I', 'O']) :=
  ⟨(field_filter_exactness.1 ['I', 'O'] (by decide)).1,
   field_filter_exactness.2.2.1 ['"', 'I', 'O'] (by decide) (by decide),
   field_filter_exactness.2.1 ['I', 'O'] ['I', 'O']⟩

/-! ## C10: empty field-filter values impose no constraint -/

theorem splitWsAux_chunk :
    ∀ (w cur s : Str), (∀ c ∈ w, c.isWhitespace = false) →
      splitWsAux cur (w ++ s) = splitWsAux (w.reverse ++ cur) s := by
  intro w
  induction w with
  | nil => intro cur s _; simp
  | cons c w ih =>
    intro cur s h
    have hc : c.isWhitespace = false := h c (List.mem_cons_self c w)
    have ih' := ih (c :: cur) s (fun d hd => h d (List.mem_cons_of_mem c hd))
    calc splitWsAux cur ((c :: w) ++ s)
        = splitWsAux (c :: cur) (w ++ s) := by simp [splitWsAux, hc]
      _ = splitWsAux (w.reverse ++ c :: cur) s := ih'
      _ = splitWsAux ((c :: w).reverse ++ cur) s := by simp [List.append_assoc]

theorem splitWs_join :
    ∀ ws : List Str, (∀ w ∈ ws, w ≠ [] ∧ ∀ c ∈ w, c.isWhitespace = false) →
      splitWs (joinWords ws) = ws := by
  intro ws
  induction ws with
  | nil => intro _; rfl
  | cons w ws ih =>
    intro h
    obtain ⟨hw, hwc⟩ := h w (List.mem_cons_self w ws)
    cases ws with
    | nil =>
      show splitWs (joinWords [w]) = [w]
      rw [show joinWords [w] = w from rfl]
      unfold splitWs
      rw [← List.append_nil w, splitWsAux_chunk w [] [] hwc]
      simp [splitWsAux, hw]
    | cons w2 ws2 =>
      show splitWs (joinWords (w :: w2 :: ws2)) = w :: w2 :: ws2
      rw [show joinWords (w :: w2 :: ws2) = w ++ ' ' :: joinWords (w2 :: ws2) from rfl]
      unfold splitWs
      rw [splitWsAux_chunk w [] _ hwc]
      have hsp : (' ' : Char).isWhitespace = true := by decide
      have hrev : (w.reverse ++ []).isEmpty = false := by simp [hw]
      simp only [splitWsAux, hsp, if_true, hrev, Bool.false_eq_true, if_false]
      simp only [List.append_nil, List.reverse_reverse]
      exact congrArg _ (ih (fun v hv => h v (List.mem_cons_of_mem w hv)))

/-- The three shapes of a token that the classification loop of `search`
discards entirely: a field-prefixed token whose value part makes
`parse_filter_value` return `None`. -/
def discardedFilterToken (tok : Str) : Prop :=
  (namePfx.isPrefixOf (lowerStr tok) ∧ parse_filter_value (tok.drop 5) = none)
  ∨ (¬ namePfx.isPrefixOf (lowerStr tok) ∧ artistPfx.isPrefixOf (lowerStr tok)
      ∧ parse_filter_value (tok.drop 7) = none)
  ∨ (¬ namePfx.isPrefixOf (lowerStr tok) ∧ ¬ artistPfx.isPrefixOf (lowerStr tok)
      ∧ albumPfx.isPrefixOf (lowerStr tok) ∧ parse_filter_value (tok.drop 6) = none)

theorem collectFilters_discard (tok : Str) (hd : discardedFilterToken tok) :
    ∀ ws1 ws2, collectFilters (ws1 ++ tok :: ws2) = collectFilters (ws1 ++ ws2) := by
  intro ws1
  induction ws1 with
  | nil =>
    intro ws2
    rcases hd with ⟨h1, hp⟩ | ⟨h1, h2, hp⟩ | ⟨h1, h2, h3, hp⟩
    · simp [collectFilters, h1, hp]
    · simp [collectFilters, h1, h2, hp]
    · simp [collectFilters, h1, h2, h3, hp]
  | cons w ws1 ih =>
    intro ws2
    simp only [List.cons_append, collectFilters, List.append_eq, ih ws2]

/-- C10: a field-filter token whose value is empty or an empty matched
quote pair is discarded entirely: a query containing such a token
returns exactly what the query without it returns (in particular,
`artist:""` does not restrict results to empty-artist records). -/
theorem search_discards_empty_filters (c : TrackCache) (ws1 ws2 : List Str) (tok : Str)
    (hwf : ∀ w ∈ ws1 ++ tok :: ws2, w ≠ [] ∧ ∀ ch ∈ w, ch.isWhitespace = false)
    (hd : discardedFilterToken tok) :
    TrackCache.search c (joinWords (ws1 ++ tok :: ws2))
      = TrackCache.search c (joinWords (ws1 ++ ws2)) := by
  have hwf2 : ∀ w ∈ ws1 ++ ws2, w ≠ [] ∧ ∀ ch ∈ w, ch.isWhitespace = false := by
    intro w hw
    rcases List.mem_append.mp hw with h | h
    · exact hwf w (List.mem_append.mpr (Or.inl h))
    · exact hwf w (List.mem_append.mpr (Or.inr (List.mem_cons_of_mem tok h)))
  unfold TrackCache.search
  rw [splitWs_join _ hwf, splitWs_join _ hwf2, collectFilters_discard tok hd ws1 ws2]

/-- C10 witness: the theorem applied to the sample cache with the bare
token `artist:` and with `artist:""`, dropped from a one-token query. -/
theorem search_discards_empty_filters_witness :
    TrackCache.search ioCache (joinWords [artistPfx])
      = TrackCache.search ioCache (joinWords [])
    ∧ TrackCache.search ioCache (joinWords [artistPfx ++ ['"', '"']])
      = TrackCache.search ioCache (joinWords []) :=
  ⟨search_discards_empty_filters ioCache [] [] artistPfx (by decide)
      (Or.inr (Or.inl (by refine ⟨by decide, by decide, ?_⟩; decide))),
   search_discards_empty_filters ioCache [] [] (artistPfx ++ ['"', '"']) (by decide)
      (Or.inr (Or.inl (by refine ⟨by decide, by decide, ?_⟩; decide)))⟩

/-! ## Idempotence machinery (C2) -/

theorem init_of_wfKey {nt : CachedTrack} (h : wfKey nt) :
    CachedTrack.init_search_key nt = nt := by
  cases nt
  unfold wfKey at h
  simp_all [CachedTrack.init_search_key]

theorem sameKey_init_self (nt : CachedTrack) :
    sameKey (CachedTrack.init_search_key nt) nt := ⟨rfl, rfl, rfl⟩

theorem hasMatch_congr_keys {u u' : List CachedTrack} (x : CachedTrack)
    (h : u.map keyOf = u'.map keyOf) : hasMatch u x ↔ hasMatch u' x := by
  rw [hasMatch_iff_keys, hasMatch_iff_keys, h]

theorem hasMatch_upsertOne_self (ts : List CachedTrack) (nt : CachedTrack) :
    hasMatch (upsertOne ts nt).1 nt := by
  rw [hasMatch_iff_keys, upsertOne_map_keyOf]
  by_cases h : hasMatch ts nt
  · rw [if_pos h]
    exact hasMatch_iff_keys.mp h
  · rw [if_neg h]
    simp

theorem hasMatch_upsertOne_mono {u : List CachedTrack} {x : CachedTrack} (m : CachedTrack)
    (h : hasMatch u x) : hasMatch (upsertOne u m).1 x := by
  rw [hasMatch_iff_keys, upsertOne_map_keyOf]
  by_cases hm : hasMatch u m
  · rw [if_pos hm]
    exact hasMatch_iff_keys.mp h
  · rw [if_neg hm]
    exact List.mem_append_left _ (hasMatch_iff_keys.mp h)

theorem hasMatch_upsertList_mono :
    ∀ (B u : List CachedTrack) (x : CachedTrack),
      hasMatch u x → hasMatch (upsertList u B).1 x := by
  intro B
  induction B with
  | nil => intro u x h; exact h
  | cons m B ih =>
    intro u x h
    simp only [upsertList]
    exact ih _ x (hasMatch_upsertOne_mono m h)

theorem rf_rf {m nt : CachedTrack} (hk : keyOf m = keyOf nt) :
    ∀ u, replaceFirst (replaceFirst u nt) m = replaceFirst u m := by
  intro u
  induction u with
  | nil => rfl
  | cons t ts ih =>
    by_cases ht : sameKey t nt
    · have htm : sameKey t m := by
        rw [sameKey_iff_keyOf] at ht ⊢
        rw [ht, hk]
      have hinit : sameKey (CachedTrack.init_search_key nt) m := by
        rw [sameKey_iff_keyOf, keyOf_init, ← hk]
      simp [replaceFirst, ht, htm, hinit]
    · have htm : ¬ sameKey t m := by
        intro hc
        rw [sameKey_iff_keyOf] at hc
        exact ht (by rw [sameKey_iff_keyOf, hc, hk])
      simp [replaceFirst, ht, htm, ih]

theorem rf_comm {m nt : CachedTrack} (hk : keyOf m ≠ keyOf nt) :
    ∀ u, replaceFirst (replaceFirst u nt) m = replaceFirst (replaceFirst u m) nt := by
  intro u
  induction u with
  | nil => rfl
  | cons t ts ih =>
    by_cases ht : sameKey t nt
    · have htm : ¬ sameKey t m := by
        intro hc
        rw [sameKey_iff_keyOf] at hc ht
        exact hk (hc ▸ ht)
      have hin : ¬ sameKey (CachedTrack.init_search_key nt) m := by
        intro hc
        rw [sameKey_iff_keyOf, keyOf_init] at hc
        exact hk (by rw [sameKey_iff_keyOf] at ht; rw [← hc])
      simp [replaceFirst, ht, htm, hin]
    · by_cases htm : sameKey t m
      · have hinm : ¬ sameKey (CachedTrack.init_search_key m) nt := by
          intro hc
          rw [sameKey_iff_keyOf, keyOf_init] at hc
          exact hk hc
        simp [replaceFirst, ht, htm, hinm]
      · simp [replaceFirst, ht, htm, ih]

theorem rf_append_ne {m nt : CachedTrack} (hmn : ¬ sameKey m nt) :
    ∀ u, replaceFirst (u ++ [m]) nt = replaceFirst u nt ++ [m] := by
  intro u
  induction u with
  | nil => simp [replaceFirst, hmn]
  | cons t ts ih =>
    by_cases ht : sameKey t nt
    · simp [replaceFirst, ht]
    · simp [replaceFirst, ht, ih]

theorem firstMatch_cons_pos {t nt : CachedTrack} (ht : sameKey t nt) (ts : List CachedTrack) :
    firstMatch (t :: ts) nt = some t :=
  List.find?_cons_of_pos ts (decide_eq_true ht)

theorem firstMatch_cons_neg {t nt : CachedTrack} (ht : ¬ sameKey t nt) (ts : List CachedTrack) :
    firstMatch (t :: ts) nt = firstMatch ts nt :=
  List.find?_cons_of_neg ts (by simpa using ht)

theorem firstMatch_replaceFirst_self {ts : List CachedTrack} {nt : CachedTrack}
    (h : hasMatch ts nt) :
    firstMatch (replaceFirst ts nt) nt = some (CachedTrack.init_search_key nt) := by
  induction ts with
  | nil => exact absurd h (by simp [hasMatch])
  | cons t ts ih =>
    by_cases ht : sameKey t nt
    · rw [show replaceFirst (t :: ts) nt = CachedTrack.init_search_key nt :: ts from by
        simp [replaceFirst, ht]]
      exact firstMatch_cons_pos (sameKey_init_self nt) ts
    · have h' : hasMatch ts nt := by
        rcases h with ⟨x, hx, hk⟩
        rcases List.mem_cons.mp hx with rfl | hxm
        · exact absurd hk ht
        · exact ⟨x, hxm, hk⟩
      rw [show replaceFirst (t :: ts) nt = t :: replaceFirst ts nt from by
        simp [replaceFirst, ht]]
      rw [firstMatch_cons_neg ht]
      exact ih h'

theorem firstMatch_append_self :
    ∀ {ts : List CachedTrack} {nt : CachedTrack},
      ¬ hasMatch ts nt → firstMatch (ts ++ [nt]) nt = some nt := by
  intro ts
  induction ts with
  | nil =>
    intro nt _
    exact firstMatch_cons_pos ⟨rfl, rfl, rfl⟩ []
  | cons t ts ih =>
    intro nt h
    have ht : ¬ sameKey t nt := fun hc => h ⟨t, List.mem_cons_self t ts, hc⟩
    have h' : ¬ hasMatch ts nt := fun ⟨x, hx, hk⟩ => h ⟨x, List.mem_cons_of_mem t hx, hk⟩
    rw [List.cons_append, firstMatch_cons_neg ht, ih h']

theorem firstMatch_upsertOne_self (ts : List CachedTrack) (nt : CachedTrack)
    (hwf : wfKey nt) :
    firstMatch (upsertOne ts nt).1 nt = some (CachedTrack.init_search_key nt) := by
  by_cases h : hasMatch ts nt
  · rw [upsertOne_of_hasMatch nt ts h]
    exact firstMatch_replaceFirst_self h
  · rw [upsertOne_notfound nt ts (not_hasMatch_iff.mp h)]
    rw [init_of_wfKey hwf]
    exact firstMatch_append_self h

theorem fm_rf_ne {m nt : CachedTrack} (hk : keyOf m ≠ keyOf nt) :
    ∀ ts, firstMatch (replaceFirst ts m) nt = firstMatch ts nt := by
  intro ts
  induction ts with
  | nil => rfl
  | cons t ts ih =>
    by_cases ht : sameKey t m
    · have htn : ¬ sameKey t nt := by
        intro hc
        rw [sameKey_iff_keyOf] at hc ht
        exact hk (ht ▸ hc)
      have hin : ¬ sameKey (CachedTrack.init_search_key m) nt := by
        intro hc
        rw [sameKey_iff_keyOf, keyOf_init] at hc
        exact hk hc
      simp [replaceFirst, ht, firstMatch, List.find?, htn, hin]
    · simp [replaceFirst, ht, firstMatch, List.find?]
      by_cases htn : sameKey t nt <;> simp [htn]
      exact ih

theorem fm_append_ne {m nt : CachedTrack} (hmn : ¬ sameKey m nt) :
    ∀ ts, firstMatch (ts ++ [m]) nt = firstMatch ts nt := by
  intro ts
  induction ts with
  | nil =>
    rw [List.nil_append, firstMatch_cons_neg hmn]
  | cons t ts ih =>
    by_cases ht : sameKey t nt
    · rw [List.cons_append, firstMatch_cons_pos ht, firstMatch_cons_pos ht]
    · rw [List.cons_append, firstMatch_cons_neg ht, firstMatch_cons_neg ht, ih]

theorem fm_upsertOne_ne {m nt : CachedTrack} (hk : keyOf m ≠ keyOf nt) (ts : List CachedTrack) :
    firstMatch ((upsertOne ts m).1) nt = firstMatch ts nt := by
  by_cases h : hasMatch ts m
  · rw [upsertOne_of_hasMatch m ts h]
    exact fm_rf_ne hk ts
  · rw [upsertOne_notfound m ts (not_hasMatch_iff.mp h)]
    exact fm_append_ne (fun hc => hk (sameKey_iff_keyOf.mp hc)) ts

theorem fm_upsertList_ne (nt : CachedTrack) :
    ∀ (B : List CachedTrack), (∀ m ∈ B, keyOf m ≠ keyOf nt) →
      ∀ ts, firstMatch ((upsertList ts B).1) nt = firstMatch ts nt := by
  intro B
  induction B with
  | nil => intro _ ts; rfl
  | cons m B ih =>
    intro hall ts
    simp only [upsertList]
    rw [ih (fun x hx => hall x (List.mem_cons_of_mem m hx)) _,
        fm_upsertOne_ne (hall m (List.mem_cons_self m B)) ts]

theorem rf_noop {nt : CachedTrack} :
    ∀ ts, firstMatch ts nt = some (CachedTrack.init_search_key nt) →
      replaceFirst ts nt = ts := by
  intro ts
  induction ts with
  | nil => intro h; cases h
  | cons t ts ih =>
    intro h
    by_cases ht : sameKey t nt
    · rw [firstMatch_cons_pos ht] at h
      have h' : CachedTrack.init_search_key nt = t := (Option.some.inj h).symm
      simp [replaceFirst, ht, h']
    · rw [firstMatch_cons_neg ht] at h
      simp [replaceFirst, ht, ih h]

theorem upsertOne_noop {ts : List CachedTrack} {nt : CachedTrack}
    (h : firstMatch ts nt = some (CachedTrack.init_search_key nt)) :
    upsertOne ts nt = (ts, false) := by
  have hmem := List.mem_of_find?_eq_some h
  have hp := List.find?_some h
  have hm : hasMatch ts nt := ⟨_, hmem, of_decide_eq_true hp⟩
  rw [upsertOne_of_hasMatch nt ts hm, rf_noop ts h]

theorem hasMatch_key_transfer {u : List CachedTrack} {m nt : CachedTrack}
    (hk : keyOf m = keyOf nt) (h : hasMatch u nt) : hasMatch u m := by
  rw [hasMatch_iff_keys] at h ⊢
  rw [hk]
  exact h

theorem hasMatch_append_left {u : List CachedTrack} {x m : CachedTrack}
    (h : hasMatch u x) : hasMatch (u ++ [m]) x := by
  rcases h with ⟨t, ht, hk⟩
  exact ⟨t, List.mem_append_left _ ht, hk⟩

theorem upsertList_absorb (nt : CachedTrack) :
    ∀ (B u : List CachedTrack), hasMatch u nt → (∃ m ∈ B, keyOf m = keyOf nt) →
      upsertList (replaceFirst u nt) B = upsertList u B := by
  intro B
  induction B with
  | nil =>
    intro u _ h
    exact absurd h (by simp)
  | cons m B ih =>
    intro u hu hocc
    by_cases hk : keyOf m = keyOf nt
    · have hum : hasMatch u m := hasMatch_key_transfer hk hu
      have hum' : hasMatch (replaceFirst u nt) m :=
        (hasMatch_congr_keys m (replaceFirst_map_keyOf nt u)).mpr hum
      simp only [upsertList]
      rw [upsertOne_of_hasMatch m _ hum', upsertOne_of_hasMatch m u hum, rf_rf hk u]
    · have hocc' : ∃ m' ∈ B, keyOf m' = keyOf nt := by
        rcases hocc with ⟨m', hm', hk'⟩
        rcases List.mem_cons.mp hm' with rfl | hmm
        · exact absurd hk' hk
        · exact ⟨m', hmm, hk'⟩
      by_cases hm : hasMatch u m
      · have hm' : hasMatch (replaceFirst u nt) m :=
          (hasMatch_congr_keys m (replaceFirst_map_keyOf nt u)).mpr hm
        simp only [upsertList]
        rw [upsertOne_of_hasMatch m _ hm', upsertOne_of_hasMatch m u hm]
        have hrew : replaceFirst (replaceFirst u nt) m = replaceFirst (replaceFirst u m) nt :=
          rf_comm hk u
        rw [hrew,
          ih (replaceFirst u m)
            ((hasMatch_congr_keys nt (replaceFirst_map_keyOf m u)).mpr hu) hocc']
      · have hm' : ¬ hasMatch (replaceFirst u nt) m := fun hc =>
          hm ((hasMatch_congr_keys m (replaceFirst_map_keyOf nt u)).mp hc)
        have hmn : ¬ sameKey m nt := fun hc => hk (sameKey_iff_keyOf.mp hc)
        simp only [upsertList]
        rw [upsertOne_notfound m _ (not_hasMatch_iff.mp hm'),
          upsertOne_notfound m u (not_hasMatch_iff.mp hm)]
        rw [show replaceFirst u nt ++ [m] = replaceFirst (u ++ [m]) nt from
          (rf_append_ne hmn u).symm]
        rw [ih (u ++ [m]) (hasMatch_append_left hu) hocc']

theorem upsertList_idem :
    ∀ (B : List CachedTrack), (∀ t ∈ B, wfKey t) →
      ∀ ts, upsertList (upsertList ts B).1 B = ((upsertList ts B).1, 0) := by
  intro B
  induction B with
  | nil => intro _ ts; rfl
  | cons nt B ih =>
    intro hwf ts
    have hwfnt : wfKey nt := hwf nt (List.mem_cons_self nt B)
    have hwfB : ∀ t ∈ B, wfKey t := fun t ht => hwf t (List.mem_cons_of_mem nt ht)
    have hm1 : hasMatch (upsertOne ts nt).1 nt := hasMatch_upsertOne_self ts nt
    have hm2 : hasMatch (upsertList (upsertOne ts nt).1 B).1 nt :=
      hasMatch_upsertList_mono B (upsertOne ts nt).1 nt hm1
    have hIH := ih hwfB (upsertOne ts nt).1
    have hfst : (upsertList ts (nt :: B)).1 = (upsertList (upsertOne ts nt).1 B).1 := by
      simp only [upsertList]
    rw [hfst]
    by_cases hocc : ∃ m ∈ B, keyOf m = keyOf nt
    · have habs := upsertList_absorb nt B _ hm2 hocc
      simp only [upsertList]
      rw [upsertOne_of_hasMatch nt _ hm2]
      rw [habs, hIH]
      simp
    · have hall : ∀ m ∈ B, keyOf m ≠ keyOf nt := fun m hm hk => hocc ⟨m, hm, hk⟩
      have hfm : firstMatch (upsertList (upsertOne ts nt).1 B).1 nt
          = some (CachedTrack.init_search_key nt) := by
        rw [fm_upsertList_ne nt B hall, firstMatch_upsertOne_self ts nt hwfnt]
      have hnoop := upsertOne_noop hfm
      simp only [upsertList]
      rw [hnoop, hIH]
      simp

/-! ## C2: idempotence of upsert_tracks -/

/-- C2: re-applying the same batch to the cache produced by a first
`upsert_tracks` of that batch returns `added_count = 0` and leaves the
cache (record set, `loaded_tracks` and all other fields) exactly as it
was after the first call.  The batch records are assumed to carry
their derived search key (`wfKey`), as every record built by
`CachedTrack::new` — the only constructor used at the call sites —
does. -/
theorem upsert_tracks_idempotent (c : TrackCache) (batch : List CachedTrack)
    (hwf : ∀ t ∈ batch, wfKey t) :
    ((c.upsert_tracks batch).1.upsert_tracks batch).2 = 0
    ∧ ((c.upsert_tracks batch).1.upsert_tracks batch).1 = (c.upsert_tracks batch).1 := by
  have h := upsertList_idem batch hwf c.tracks
  unfold TrackCache.upsert_tracks
  constructor
  · simp [h]
  · simp [h]

/-- C2 witness: the theorem applied to a concrete cache and a batch
(an update of an existing record plus a new record, with a duplicate
key inside the batch). -/
theorem upsert_tracks_idempotent_witness :
    (∀ t ∈ [trackA2, trackB, trackA], wfKey t)
    ∧ ((cacheA.upsert_tracks [trackA2, trackB, trackA]).1.upsert_tracks
          [trackA2, trackB, trackA]).2 = 0
    ∧ ((cacheA.upsert_tracks [trackA2, trackB, trackA]).1.upsert_tracks
          [trackA2, trackB, trackA]).1 = (cacheA.upsert_tracks [trackA2, trackB, trackA]).1 :=
  ⟨by decide,
   (upsert_tracks_idempotent cacheA [trackA2, trackB, trackA] (by decide)).1,
   (upsert_tracks_idempotent cacheA [trackA2, trackB, trackA] (by decide)).2⟩

/-! ## Splitting lemmas for date parsing (C5) -/

theorem splitCSAux_skip1 {c : Char} (hc : c ≠ ',') (cur s : Str) :
    splitCommaSpaceAux cur (c :: s) = splitCommaSpaceAux (c :: cur) s := by
  cases s with
  | nil => simp [splitCommaSpaceAux]
  | cons c2 rest => simp [splitCommaSpaceAux, hc]

theorem splitCSAux_skip :
    ∀ (a cur s : Str), (∀ c ∈ a, c ≠ ',') →
      splitCommaSpaceAux cur (a ++ s) = splitCommaSpaceAux (a.reverse ++ cur) s := by
  intro a
  induction a with
  | nil => intro cur s _; simp
  | cons c a ih =>
    intro cur s h
    have hc : c ≠ ',' := h c (List.mem_cons_self c a)
    rw [List.cons_append, splitCSAux_skip1 hc, ih (c :: cur) s
      (fun d hd => h d (List.mem_cons_of_mem c hd))]
    simp [List.append_assoc]

theorem splitCSAux_hit (cur rest : Str) :
    splitCommaSpaceAux cur (',' :: ' ' :: rest) = cur.reverse :: splitCommaSpaceAux [] rest := by
  simp [splitCommaSpaceAux]

theorem splitCSAux_last (s cur : Str) (h : ∀ c ∈ s, c ≠ ',') :
    splitCommaSpaceAux cur s = [cur.reverse ++ s] := by
  have := splitCSAux_skip s cur [] h
  rw [List.append_nil] at this
  rw [this]
  simp [splitCommaSpaceAux]

theorem splitAtAux_skip1 {c : Char} (hc : c ≠ ' ') (cur s : Str) :
    splitAtSepAux cur (c :: s) = splitAtSepAux (c :: cur) s := by
  match s with
  | [] => simp [splitAtSepAux]
  | [c2] => simp [splitAtSepAux]
  | [c2, c3] => simp [splitAtSepAux]
  | c2 :: c3 :: c4 :: rest => simp [splitAtSepAux, hc]

theorem splitAtAux_skip :
    ∀ (a cur s : Str), (∀ c ∈ a, c ≠ ' ') →
      splitAtSepAux cur (a ++ s) = splitAtSepAux (a.reverse ++ cur) s := by
  intro a
  induction a with
  | nil => intro cur s _; simp
  | cons c a ih =>
    intro cur s h
    have hc : c ≠ ' ' := h c (List.mem_cons_self c a)
    rw [List.cons_append, splitAtAux_skip1 hc, ih (c :: cur) s
      (fun d hd => h d (List.mem_cons_of_mem c hd))]
    simp [List.append_assoc]

theorem splitAtAux_hit (cur rest : Str) :
    splitAtSepAux cur (' ' :: 'a' :: 't' :: ' ' :: rest)
      = cur.reverse :: splitAtSepAux [] rest := by
  simp [splitAtSepAux]

theorem splitAtAux_last (s cur : Str) (h : ∀ c ∈ s, c ≠ ' ') :
    splitAtSepAux cur s = [cur.reverse ++ s] := by
  have := splitAtAux_skip s cur [] h
  rw [List.append_nil] at this
  rw [this]
  simp [splitAtSepAux]


theorem isDigit_not_special {c : Char} (h : c.isDigit = true) :
    c ≠ ',' ∧ c ≠ ' ' ∧ c.isWhitespace = false := by
  refine ⟨?_, ?_, ?_⟩
  · rintro rfl
    exact absurd h (by decide)
  · rintro rfl
    exact absurd h (by decide)
  · by_cases hw : c.isWhitespace = true
    · simp only [Char.isWhitespace] at hw
      rcases Bool.or_eq_true_iff.mp hw with hw1 | hw2
      · rcases Bool.or_eq_true_iff.mp hw1 with hw3 | hw4
        · rcases Bool.or_eq_true_iff.mp hw3 with hw5 | hw6
          · rw [show c = ' ' from by simpa using hw5] at h
            exact absurd h (by decide)
          · rw [show c = '\t' from by simpa using hw6] at h
            exact absurd h (by decide)
        · rw [show c = '\r' from by simpa using hw4] at h
          exact absurd h (by decide)
      · rw [show c = '\n' from by simpa using hw2] at h
        exact absurd h (by decide)
    · simpa using hw

theorem parseU32_chars (s : Str) (n : Nat) (h : parseU32 s = some n) :
    s ≠ [] ∧ ∀ c ∈ s, c = '+' ∨ c.isDigit = true := by
  unfold parseU32 at h
  cases s with
  | nil => simp at h
  | cons c s' =>
    refine ⟨by simp, ?_⟩
    intro d hd
    by_cases hc : c = '+'
    · subst hc
      simp only [List.head?_cons, Option.some.injEq, if_pos rfl, List.tail_cons] at h
      rcases List.mem_cons.mp hd with rfl | hds
      · exact Or.inl rfl
      · right
        by_cases he : s'.isEmpty
        · simp [he] at h
        · by_cases ha : s'.all Char.isDigit
          · exact List.all_eq_true.mp ha d hds
          · simp [he, ha] at h
    · have hcond : ((c :: s').head? = some '+') = False := by
        simp [hc]
      rw [if_congr (iff_of_eq hcond) rfl rfl, if_false] at h
      right
      by_cases he : (c :: s').isEmpty
      · simp [he] at h
      · by_cases ha : (c :: s').all Char.isDigit
        · exact List.all_eq_true.mp ha d hd
        · simp [he, ha] at h

/-- Character facts about the digit strings accepted by `parseU32`. -/
theorem parseU32_no_special (s : Str) (n : Nat) (h : parseU32 s = some n) :
    s ≠ [] ∧ ∀ c ∈ s, c ≠ ',' ∧ c ≠ ' ' ∧ c.isWhitespace = false := by
  obtain ⟨hne, hch⟩ := parseU32_chars s n h
  refine ⟨hne, fun c hc => ?_⟩
  rcases hch c hc with rfl | hdig
  · exact ⟨by decide, by decide, by decide⟩
  · exact isDigit_not_special hdig

/-- Character facts about the twelve month names. -/
theorem monthNames_chars :
    ∀ mon ∈ monthNames,
      mon ≠ [] ∧ (∀ c ∈ mon, c.isWhitespace = false) ∧ (∀ c ∈ mon, c ≠ ',') := by
  decide

theorem splitCSAux_no_sep :
    ∀ (s cur : Str), containsSub s [',', ' '] = false →
      splitCommaSpaceAux cur s = [cur.reverse ++ s] := by
  intro s
  induction s with
  | nil => intro cur _; simp [splitCommaSpaceAux]
  | cons c1 s1 ih =>
    intro cur h
    simp only [containsSub, Bool.or_eq_false_iff] at h
    obtain ⟨h1, h2⟩ := h
    cases s1 with
    | nil => simp [splitCommaSpaceAux]
    | cons c2 rest =>
      have hg : ¬ (c1 = ',' ∧ c2 = ' ') := by
        rintro ⟨rfl, rfl⟩
        simp [List.isPrefixOf] at h1
      rw [show splitCommaSpaceAux cur (c1 :: c2 :: rest)
            = splitCommaSpaceAux (c1 :: cur) (c2 :: rest) from by
          simp [splitCommaSpaceAux, hg]]
      rw [ih (c1 :: cur) h2]
      simp

/-! ## C5: the sortable date transform -/

/-- C5 (counterexample): the transform is not the fully zero-padded
`YYYY-MM-DD HH:MM:SS` string — the time-of-day part is copied verbatim,
so the single-digit hour of the source's own sample date stays
unpadded; and an unparseable string without the `", "` separator maps
to itself, not to the empty string. -/
theorem parse_date_counterexample :
    parse_date_to_sortable sundayDate
      = ['2','0','1','5','-','0','9','-','1','3',' ','3',':','4','4',':','4','2']
    ∧ parse_date_to_sortable sundayDate
        ≠ ['2','0','1','5','-','0','9','-','1','3',' ','0','3',':','4','4',':','4','2']
    ∧ parse_date_to_sortable garbageDate = garbageDate
    ∧ garbageDate ≠ ([] : Str) := by
  decide

/-- C5 (amended): for a date string in the source format
`Weekday, Month D, YYYY at H:MM:SS` (weekday without commas, a known
month name, day and year accepted by `u32` parsing, a time part
without commas or spaces), the transform is the zero-padded
`YYYY-MM-DD ` date followed by the time part copied verbatim; the
empty string maps to the empty string; a nonempty string without any
`", "` occurrence maps to itself; and in `get_recent_albums`'s
descending comparator the empty transform is minimal, i.e. such
records are treated as very old. -/
theorem parse_date_spec :
    (∀ (w mon dstr ystr t : Str) (d y : Nat),
        mon ∈ monthNames →
        (∀ c ∈ w, c ≠ ',') →
        (∀ c ∈ t, c ≠ ',' ∧ c ≠ ' ') →
        parseU32 dstr = some d →
        parseU32 ystr = some y →
        parse_date_to_sortable
            (w ++ ',' :: ' ' ::
              (mon ++ ' ' :: (dstr ++ ',' :: ' ' ::
                (ystr ++ ' ' :: 'a' :: 't' :: ' ' :: t))))
          = padNum 4 y ++ ['-'] ++ padNum 2 (monthNum mon) ++ ['-'] ++ padNum 2 d
              ++ [' '] ++ t)
    ∧ parse_date_to_sortable [] = []
    ∧ (∀ s : Str, s ≠ [] → containsSub s [',', ' '] = false →
        parse_date_to_sortable s = s)
    ∧ (∀ s : Str, compareStr [] s ≠ .gt)
    ∧ (∀ a b : CachedTrack,
        recentCmp a b
          = compareStr (parse_date_to_sortable b.date_added)
              (parse_date_to_sortable a.date_added)) := by
  refine ⟨?_, rfl, ?_, ?_, fun a b => rfl⟩
  · intro w mon dstr ystr t d y hmon hw ht hd hy
    obtain ⟨hmne, hmws, hmc⟩ := monthNames_chars mon hmon
    obtain ⟨hdne, hdch⟩ := parseU32_no_special dstr d hd
    obtain ⟨hyne, hych⟩ := parseU32_no_special ystr y hy
    have hmdc : ∀ c ∈ mon ++ ' ' :: dstr, c ≠ ',' := by
      intro c hc
      rcases List.mem_append.mp hc with hcm | hcd
      · exact hmc c hcm
      · rcases List.mem_cons.mp hcd with rfl | hcd'
        · decide
        · exact (hdch c hcd').1
    have hr2c : ∀ c ∈ ystr ++ ' ' :: 'a' :: 't' :: ' ' :: t, c ≠ ',' := by
      intro c hc
      rcases List.mem_append.mp hc with hcy | hct
      · exact (hych c hcy).1
      · simp only [List.mem_cons] at hct
        rcases hct with rfl | rfl | rfl | rfl | hct'
        · decide
        · decide
        · decide
        · decide
        · exact (ht c hct').1
    have hparts : splitCommaSpace
        (w ++ ',' :: ' ' ::
          (mon ++ ' ' :: (dstr ++ ',' :: ' ' ::
            (ystr ++ ' ' :: 'a' :: 't' :: ' ' :: t))))
        = [w, mon ++ ' ' :: dstr, ystr ++ ' ' :: 'a' :: 't' :: ' ' :: t] := by
      unfold splitCommaSpace
      rw [splitCSAux_skip w [] _ hw, splitCSAux_hit]
      rw [show mon ++ ' ' :: (dstr ++ ',' :: ' ' ::
            (ystr ++ ' ' :: 'a' :: 't' :: ' ' :: t))
          = (mon ++ ' ' :: dstr) ++ ',' :: ' ' ::
            (ystr ++ ' ' :: 'a' :: 't' :: ' ' :: t) from by
        simp [List.append_assoc]]
      rw [splitCSAux_skip (mon ++ ' ' :: dstr) [] _ hmdc, splitCSAux_hit]
      rw [splitCSAux_last _ [] hr2c]
      simp
    have hmd : splitWs (mon ++ ' ' :: dstr) = [mon, dstr] := by
      rw [show mon ++ ' ' :: dstr = joinWords [mon, dstr] from rfl]
      refine splitWs_join [mon, dstr] ?_
      intro v hv
      simp only [List.mem_cons, List.not_mem_nil, or_false] at hv
      rcases hv with rfl | rfl
      · exact ⟨hmne, hmws⟩
      · exact ⟨hdne, fun c hc => (hdch c hc).2.2⟩
    have hyt : splitAtSep (ystr ++ ' ' :: 'a' :: 't' :: ' ' :: t) = [ystr, t] := by
      unfold splitAtSep
      rw [splitAtAux_skip ystr [] _ (fun c hc => (hych c hc).2.1), splitAtAux_hit]
      rw [splitAtAux_last t [] (fun c hc => (ht c hc).2)]
      simp
    have hine : (w ++ ',' :: ' ' ::
        (mon ++ ' ' :: (dstr ++ ',' :: ' ' ::
          (ystr ++ ' ' :: 'a' :: 't' :: ' ' :: t)))).isEmpty = false := by
      cases w <;> simp
    simp only [parse_date_to_sortable, hine, Bool.false_eq_true, if_false,
      hparts, hmd, hyt, hd, hy]
    simp [hmd, hyt, hd, hy]
  · intro s hne hnc
    have hne' : s.isEmpty = false := by
      cases s with
      | nil => exact absurd rfl hne
      | cons c cs => rfl
    have hpart : splitCommaSpace s = [s] := by
      unfold splitCommaSpace
      rw [splitCSAux_no_sep s [] hnc]
      rfl
    simp [parse_date_to_sortable, hne', hpart]
  · intro s
    cases s <;> simp [compareStr]

/-- C5 witness: the amended transform theorem applied to the source
comment's own sample date, plus the no-separator case at a concrete
string. -/
theorem parse_date_spec_witness :
    parse_date_to_sortable
        (['S','u','n','d','a','y'] ++ ',' :: ' ' ::
          (['S','e','p','t','e','m','b','e','r'] ++ ' ' :: (['1','3'] ++ ',' :: ' ' ::
            (['2','0','1','5'] ++ ' ' :: 'a' :: 't' :: ' ' :: ['3',':','4','4',':','4','2']))))
      = padNum 4 2015 ++ ['-'] ++ padNum 2 9 ++ ['-'] ++ padNum 2 13
          ++ [' '] ++ ['3',':','4','4',':','4','2']
    ∧ parse_date_to_sortable ['g','a','r','b','a','g','e'] = ['g','a','r','b','a','g','e'] := by
  have h1 := parse_date_spec.1 ['S','u','n','d','a','y'] ['S','e','p','t','e','m','b','e','r']
    ['1','3'] ['2','0','1','5'] ['3',':','4','4',':','4','2'] 13 2015
    (by decide) (by decide) (by decide) (by decide) (by decide)
  have h2 := parse_date_spec.2.2.1 ['g','a','r','b','a','g','e'] (by decide) (by decide)
  exact ⟨by rw [h1]; decide, h2⟩
